import Mathlib

/-!
Shallow embedding of the bounded MPMC queue from `src/lib.rs` (Vyukov-style
ring buffer with per-slot ticket counters) and proofs of the specification
claims about it.

The Rust code coordinates threads with atomics; here we study its sequential
(linearized) semantics: state is passed explicitly, each atomic load/store/CAS
is a read or functional update of that state, and the retry loops are given a
fuel parameter (the loops terminate only because of interference invariants,
which in the sequential semantics become reachability invariants).  A `none`
result of a fueled function means the loop would keep spinning.
-/

namespace MpmcQueue

/-- One ring-buffer cell: `ticket` models the `AtomicUsize` sequence counter,
`data` models the `UnsafeCell<Option<T>>` payload. -/
structure Node (T : Type) where
  ticket : Nat
  data : Option T
  deriving Repr, DecidableEq

/-- The queue state: `nodes` is the slot vector, `mask = bound - 1`,
and the two cursors.  Mirrors `pub struct Queue<T>` in the source. -/
structure Queue (T : Type) where
  nodes : List (Node T)
  mask : Nat
  enqueue_index : Nat
  dequeue_index : Nat
  deriving Repr, DecidableEq

variable {T : Type}

/-- `self.nodes[i]` (always in range in the source; out-of-range reads a
default node, which never happens on reachable states). -/
def Queue.node (q : Queue T) (i : Nat) : Node T :=
  q.nodes.getD i { ticket := 0, data := none }

/-- Replace slot `i`. -/
def Queue.setNode (q : Queue T) (i : Nat) (n : Node T) : Queue T :=
  { q with nodes := q.nodes.set i n }

/-- `*node.data.get() = d` for slot `i`. -/
def Queue.storeData (q : Queue T) (i : Nat) (d : Option T) : Queue T :=
  q.setNode i { q.node i with data := d }

/-- `node.ticket.store(t)` for slot `i`. -/
def Queue.storeTicket (q : Queue T) (i : Nat) (t : Nat) : Queue T :=
  q.setNode i { q.node i with ticket := t }

/-- `Queue::new(bound)`.  The Rust code `assert!`s that `bound >= 2` and
`bound & (bound - 1) == 0`; a failed assertion (invalid capacity) is modelled
as `none`, so no queue is produced.  Slot `i` starts with ticket `i`, both
cursors start at `0`. -/
def Queue.new (T : Type) (bound : Nat) : Option (Queue T) :=
  if 2 ≤ bound ∧ bound &&& (bound - 1) = 0 then
    some { nodes := (List.range bound).map fun i => { ticket := i, data := none }
           mask := bound - 1
           enqueue_index := 0
           dequeue_index := 0 }
  else
    none

/-- The loop body of `Queue::try_enqueue`, with explicit fuel.  `index` is the
local copy of the enqueue cursor.  Result `some (q, none)` is `None` in Rust
(accepted), `some (q, some v)` is `Some(v)` (rejected, value handed back),
and `none` is fuel exhaustion (the loop would spin).  The
`compare_and_swap(index, index + 1)` is modelled by comparing
`q.enqueue_index` with `index` and bumping it on success. -/
def tryEnqueueAux (item : T) : Queue T → Nat → Nat → Option (Queue T × Option T)
  | _, _, 0 => none
  | q, index, fuel + 1 =>
    let node := q.node (index &&& q.mask)
    let ticket := node.ticket
    if ticket = index then
      if index = q.enqueue_index then
        -- CAS won: bump the cursor, write the payload, publish the ticket.
        let q1 : Queue T := { q with enqueue_index := index + 1 }
        let q2 := q1.storeData (index &&& q.mask) (some item)
        let q3 := q2.storeTicket (index &&& q.mask) (index + 1)
        some (q3, none)
      else
        -- CAS lost: loop again with the same local `index`.
        tryEnqueueAux item q index fuel
    else if ticket < index then
      some (q, some item)
    else
      tryEnqueueAux item q q.enqueue_index fuel

/-- `Queue::try_enqueue`: read the enqueue cursor (relaxed), then run the
claim loop. -/
def Queue.try_enqueue (q : Queue T) (item : T) (fuel : Nat) :
    Option (Queue T × Option T) :=
  tryEnqueueAux item q q.enqueue_index fuel

/-- The loop body of `Queue::try_dequeue`, with explicit fuel.  Result
`some (q, some v)` is `Some(v)` in Rust, `some (q, none)` is `None`
(empty), and `none` is fuel exhaustion.  On a won CAS the payload is
`take`n (read and replaced by `None`) and the ticket is republished as
`index + mask + 1`. -/
def tryDequeueAux : Queue T → Nat → Nat → Option (Queue T × Option T)
  | _, _, 0 => none
  | q, index, fuel + 1 =>
    let node := q.node (index &&& q.mask)
    let ticket := node.ticket
    if ticket = index + 1 then
      if index = q.dequeue_index then
        let q1 : Queue T := { q with dequeue_index := index + 1 }
        let data := (q1.node (index &&& q.mask)).data
        let q2 := q1.storeData (index &&& q.mask) none
        let q3 := q2.storeTicket (index &&& q.mask) (index + q.mask + 1)
        some (q3, data)
      else
        tryDequeueAux q index fuel
    else if ticket < index + 1 then
      some (q, none)
    else
      tryDequeueAux q q.dequeue_index fuel

/-- `Queue::try_dequeue`: read the dequeue cursor (relaxed), then run the
claim loop. -/
def Queue.try_dequeue (q : Queue T) (fuel : Nat) :
    Option (Queue T × Option T) :=
  tryDequeueAux q q.dequeue_index fuel

/-- `Queue::enqueue`: spin on `try_enqueue`, feeding the rejected value back
in, until accepted.  Fueled; `none` means the spin did not finish. -/
def Queue.enqueue (q : Queue T) (item : T) : Nat → Option (Queue T)
  | 0 => none
  | fuel + 1 =>
    match q.try_enqueue item (fuel + 1) with
    | some (q1, none) => some q1
    | some (q1, some v) => q1.enqueue v fuel
    | none => none

/-- `Queue::dequeue`: spin on `try_dequeue` until it yields a value.
Fueled; `none` means the spin did not finish. -/
def Queue.dequeue (q : Queue T) : Nat → Option (Queue T × T)
  | 0 => none
  | fuel + 1 =>
    match q.try_dequeue (fuel + 1) with
    | some (q1, some v) => some (q1, v)
    | some (q1, none) => q1.dequeue fuel
    | none => none

/-- A single queue operation of a client program. -/
inductive Op (T : Type) where
  | enq (v : T)
  | deq
  deriving Repr, DecidableEq

/-- Run a sequence of operations (the sequential/linearized semantics of an
interleaving).  Returns the final state, the list of values whose enqueue was
*accepted*, in call order, and the list of values returned by dequeues, in
call order.  Rejected enqueues and empty dequeues contribute nothing. -/
def runTrace : Queue T → List (Op T) → Option (Queue T × List T × List T)
  | q, [] => some (q, [], [])
  | q, Op.enq v :: ops =>
    match q.try_enqueue v 1 with
    | some (q1, none) =>
      match runTrace q1 ops with
      | some (qf, es, ds) => some (qf, v :: es, ds)
      | none => none
    | some (q1, some _) => runTrace q1 ops
    | none => none
  | q, Op.deq :: ops =>
    match q.try_dequeue 1 with
    | some (q1, some v) =>
      match runTrace q1 ops with
      | some (qf, es, ds) => some (qf, es, v :: ds)
      | none => none
    | some (q1, none) => runTrace q1 ops
    | none => none

/-- States reachable from a freshly constructed queue by any sequence of
(arbitrarily fueled) `try_enqueue` / `try_dequeue` calls. -/
inductive Reachable (T : Type) (bound : Nat) : Queue T → Prop where
  | init (q : Queue T) : Queue.new T bound = some q → Reachable T bound q
  | enq (q q1 : Queue T) (item : T) (r : Option T) (fuel : Nat) :
      Reachable T bound q → q.try_enqueue item fuel = some (q1, r) →
      Reachable T bound q1
  | deq (q q1 : Queue T) (r : Option T) (fuel : Nat) :
      Reachable T bound q → q.try_dequeue fuel = some (q1, r) →
      Reachable T bound q1

/-- A capacity the constructor accepts: at least 2 and a power of two. -/
def ValidBound (bound : Nat) : Prop :=
  2 ≤ bound ∧ ∃ k, bound = 2 ^ k

/-- The sequential state invariant, with `l` the abstract queue contents
(front first).  Writing `d`/`e` for the cursors: `d ≤ e ≤ d + bound`,
`e - d = l.length`; position `d + i` (for `i < l.length`) is published with
ticket `d + i + 1` and payload `l[i]`; every position `p` with
`e ≤ p < d + bound` is free with ticket `p` and empty payload. -/
def Inv (bound : Nat) (q : Queue T) (l : List T) : Prop :=
  q.nodes.length = bound ∧
  q.mask = bound - 1 ∧
  q.enqueue_index = q.dequeue_index + l.length ∧
  l.length ≤ bound ∧
  (∀ i, i < l.length →
    (q.node ((q.dequeue_index + i) % bound)).ticket = q.dequeue_index + i + 1 ∧
    (q.node ((q.dequeue_index + i) % bound)).data = l[i]?) ∧
  (∀ p, q.enqueue_index ≤ p → p < q.dequeue_index + bound →
    (q.node (p % bound)).ticket = p ∧ (q.node (p % bound)).data = none)

/-! ### Basic helpers -/

theorem window_mod_ne {c a b : Nat} (hab : a < b) (h : b < a + c) :
    a % c ≠ b % c := by
  intro he
  have hdvd : c ∣ b - a := (Nat.modEq_iff_dvd' (Nat.le_of_lt hab)).1 he
  have := Nat.le_of_dvd (by omega) hdvd
  omega

@[simp] theorem setNode_mask (q : Queue T) (i : Nat) (n : Node T) :
    (q.setNode i n).mask = q.mask := rfl

@[simp] theorem setNode_enqueue_index (q : Queue T) (i : Nat) (n : Node T) :
    (q.setNode i n).enqueue_index = q.enqueue_index := rfl

@[simp] theorem setNode_dequeue_index (q : Queue T) (i : Nat) (n : Node T) :
    (q.setNode i n).dequeue_index = q.dequeue_index := rfl

@[simp] theorem setNode_nodes_length (q : Queue T) (i : Nat) (n : Node T) :
    (q.setNode i n).nodes.length = q.nodes.length := by
  simp [Queue.setNode]

theorem node_set_self (q : Queue T) (i : Nat) (n : Node T)
    (h : i < q.nodes.length) : (q.setNode i n).node i = n := by
  simp [Queue.setNode, Queue.node, List.getD_eq_getElem?_getD,
    List.getElem?_set_self h]

theorem node_set_ne (q : Queue T) (i j : Nat) (n : Node T) (h : i ≠ j) :
    (q.setNode i n).node j = q.node j := by
  simp [Queue.setNode, Queue.node, List.getD_eq_getElem?_getD,
    List.getElem?_set_ne h]

theorem exists_testBit_of_ne_zero {m : Nat} (hm : m ≠ 0) :
    ∃ i, m.testBit i = true := by
  by_contra hc
  push_neg at hc
  refine hm (Nat.eq_of_testBit_eq fun i => ?_)
  rw [Nat.zero_testBit]
  exact Bool.eq_false_iff.mpr (hc i)

/-- `n & (n - 1) == 0` (the constructor's bit trick) characterizes the powers
of two among the positive naturals. -/
theorem land_pred_eq_zero_iff (n : Nat) :
    1 ≤ n → (n &&& (n - 1) = 0 ↔ ∃ k, n = 2 ^ k) := by
  induction n using Nat.strong_induction_on with
  | _ n ih =>
    intro hn
    constructor
    · intro h0
      by_cases h1 : n = 1
      · exact ⟨0, by simp [h1]⟩
      rcases Nat.even_or_odd n with he | ho
      · obtain ⟨m, hm⟩ := he
        have hm1 : 1 ≤ m := by omega
        have hmland : m &&& (m - 1) = 0 := by
          apply Nat.eq_of_testBit_eq
          intro i
          rw [Nat.zero_testBit, Nat.testBit_land]
          have hb : Nat.testBit (n &&& (n - 1)) (i + 1) = false := by
            rw [h0, Nat.zero_testBit]
          rw [Nat.testBit_land, Nat.testBit_succ, Nat.testBit_succ] at hb
          have e1 : n / 2 = m := by omega
          have e2 : (n - 1) / 2 = m - 1 := by omega
          rwa [e1, e2] at hb
        obtain ⟨k, hk⟩ := (ih m (by omega) hm1).1 hmland
        exact ⟨k + 1, by rw [pow_succ]; omega⟩
      · obtain ⟨m, hm⟩ := ho
        have hm1 : 1 ≤ m := by omega
        obtain ⟨i, hi⟩ := exists_testBit_of_ne_zero (show m ≠ 0 by omega)
        have hb : Nat.testBit (n &&& (n - 1)) (i + 1) = false := by
          rw [h0, Nat.zero_testBit]
        rw [Nat.testBit_land, Nat.testBit_succ, Nat.testBit_succ] at hb
        have e1 : n / 2 = m := by omega
        have e2 : (n - 1) / 2 = m := by omega
        rw [e1, e2, hi] at hb
        simp at hb
    · rintro ⟨k, rfl⟩
      apply Nat.eq_of_testBit_eq
      intro i
      rw [Nat.zero_testBit, Nat.testBit_land, Nat.testBit_two_pow_sub_one]
      by_cases hik : i = k
      · subst hik; simp
      · rw [Nat.testBit_two_pow_of_ne (Ne.symm hik)]
        simp

theorem and_mask_eq_mod {bound : Nat} (hb : ∃ k, bound = 2 ^ k) (x : Nat) :
    x &&& (bound - 1) = x % bound := by
  obtain ⟨k, rfl⟩ := hb
  exact Nat.and_pow_two_sub_one_eq_mod x k

theorem new_eq_some {bound : Nat} {q : Queue T}
    (h : Queue.new T bound = some q) :
    2 ≤ bound ∧ bound &&& (bound - 1) = 0 ∧
    q.nodes = (List.range bound).map (fun i => { ticket := i, data := none }) ∧
    q.mask = bound - 1 ∧ q.enqueue_index = 0 ∧ q.dequeue_index = 0 := by
  unfold Queue.new at h
  split at h
  · rename_i hcond
    injection h with h2
    subst h2
    exact ⟨hcond.1, hcond.2, rfl, rfl, rfl, rfl⟩
  · cases h

theorem new_valid {bound : Nat} {q : Queue T}
    (h : Queue.new T bound = some q) : ValidBound bound := by
  obtain ⟨h2, hland, -⟩ := new_eq_some h
  exact ⟨h2, (land_pred_eq_zero_iff bound (by omega)).1 hland⟩

theorem new_nodes_length {bound : Nat} {q : Queue T}
    (h : Queue.new T bound = some q) : q.nodes.length = bound := by
  obtain ⟨-, -, hn, -⟩ := new_eq_some h
  simp [hn]

theorem new_node {bound : Nat} {q : Queue T}
    (h : Queue.new T bound = some q) (i : Nat) (hi : i < bound) :
    q.node i = { ticket := i, data := none } := by
  obtain ⟨-, -, hn, -⟩ := new_eq_some h
  rw [Queue.node, hn, List.getD_eq_getElem?_getD,
    List.getElem?_eq_getElem (by simpa using hi)]
  simp

@[simp] theorem node_update_enq (q : Queue T) (v i : Nat) :
    ({ q with enqueue_index := v } : Queue T).node i = q.node i := rfl

@[simp] theorem node_update_deq (q : Queue T) (v i : Nat) :
    ({ q with dequeue_index := v } : Queue T).node i = q.node i := rfl

/-- One unrolling of the `try_enqueue` claim loop. -/
theorem tryEnqueueAux_succ (item : T) (q : Queue T) (index fuel : Nat) :
    tryEnqueueAux item q index (fuel + 1) =
      (if (q.node (index &&& q.mask)).ticket = index then
        if index = q.enqueue_index then
          some ((({ q with enqueue_index := index + 1 } : Queue T).storeData
            (index &&& q.mask) (some item)).storeTicket (index &&& q.mask)
            (index + 1), none)
        else tryEnqueueAux item q index fuel
      else if (q.node (index &&& q.mask)).ticket < index then
        some (q, some item)
      else tryEnqueueAux item q q.enqueue_index fuel) := rfl

/-- One unrolling of the `try_dequeue` claim loop. -/
theorem tryDequeueAux_succ (q : Queue T) (index fuel : Nat) :
    tryDequeueAux q index (fuel + 1) =
      (if (q.node (index &&& q.mask)).ticket = index + 1 then
        if index = q.dequeue_index then
          some ((({ q with dequeue_index := index + 1 } : Queue T).storeData
            (index &&& q.mask) none).storeTicket (index &&& q.mask)
            (index + q.mask + 1),
            (({ q with dequeue_index := index + 1 } : Queue T).node
              (index &&& q.mask)).data)
        else tryDequeueAux q index fuel
      else if (q.node (index &&& q.mask)).ticket < index + 1 then
        some (q, none)
      else tryDequeueAux q q.dequeue_index fuel) := rfl

/-- The combined effect on slot `j` of writing the payload and then storing
the ticket. -/
theorem publish_node (q : Queue T) (j : Nat) (d0 : Option T) (t : Nat)
    (hj : j < q.nodes.length) (i : Nat) :
    ((q.storeData j d0).storeTicket j t).node i =
      if i = j then { ticket := t, data := d0 } else q.node i := by
  by_cases hij : i = j
  · subst hij
    rw [if_pos rfl, Queue.storeTicket,
      node_set_self _ _ _ (by simpa [Queue.storeData] using hj),
      Queue.storeData, node_set_self _ _ _ hj]
  · rw [if_neg hij, Queue.storeTicket,
      node_set_ne _ _ _ _ (Ne.symm hij), Queue.storeData,
      node_set_ne _ _ _ _ (Ne.symm hij)]

@[simp] theorem storeData_mask (q : Queue T) (i : Nat) (d : Option T) :
    (q.storeData i d).mask = q.mask := rfl

@[simp] theorem storeData_enqueue_index (q : Queue T) (i : Nat) (d : Option T) :
    (q.storeData i d).enqueue_index = q.enqueue_index := rfl

@[simp] theorem storeData_dequeue_index (q : Queue T) (i : Nat) (d : Option T) :
    (q.storeData i d).dequeue_index = q.dequeue_index := rfl

@[simp] theorem storeData_nodes_length (q : Queue T) (i : Nat) (d : Option T) :
    (q.storeData i d).nodes.length = q.nodes.length := by
  simp [Queue.storeData]

@[simp] theorem storeTicket_mask (q : Queue T) (i t : Nat) :
    (q.storeTicket i t).mask = q.mask := rfl

@[simp] theorem storeTicket_enqueue_index (q : Queue T) (i t : Nat) :
    (q.storeTicket i t).enqueue_index = q.enqueue_index := rfl

@[simp] theorem storeTicket_dequeue_index (q : Queue T) (i t : Nat) :
    (q.storeTicket i t).dequeue_index = q.dequeue_index := rfl

@[simp] theorem storeTicket_nodes_length (q : Queue T) (i t : Nat) :
    (q.storeTicket i t).nodes.length = q.nodes.length := by
  simp [Queue.storeTicket]

/-- A queue satisfying the invariant that is not full accepts an enqueue:
the cursor advances, the claimed slot is published with the new value, and
the abstract contents gain `item` at the back.  The result does not depend
on the (positive) fuel. -/
theorem tryEnqueue_accept {bound : Nat} {q : Queue T} {l : List T}
    (hv : ValidBound bound) (hinv : Inv bound q l) (hlen : l.length < bound)
    (item : T) :
    ∃ q1, (∀ fuel, q.try_enqueue item (fuel + 1) = some (q1, none)) ∧
      Inv bound q1 (l ++ [item]) ∧
      q1.enqueue_index = q.enqueue_index + 1 ∧
      q1.dequeue_index = q.dequeue_index := by
  obtain ⟨hlen0, hmask, hcur, hle, hpub, hfree⟩ := hinv
  have hb2 : 2 ≤ bound := hv.1
  have hbpos : 0 < bound := by omega
  have hmaskmod : ∀ x : Nat, x &&& q.mask = x % bound := fun x => by
    rw [hmask]; exact and_mask_eq_mod hv.2 x
  have hfree_e := hfree q.enqueue_index le_rfl (by omega)
  refine ⟨((({ q with enqueue_index := q.enqueue_index + 1 } : Queue T).storeData
      (q.enqueue_index % bound) (some item)).storeTicket
      (q.enqueue_index % bound) (q.enqueue_index + 1)), ?_, ?_, by simp, by simp⟩
  · intro fuel
    rw [Queue.try_enqueue, tryEnqueueAux_succ]
    simp only [hmaskmod]
    rw [hfree_e.1]
    simp
  · have hjlt : q.enqueue_index % bound <
        ({ q with enqueue_index := q.enqueue_index + 1 } : Queue T).nodes.length := by
      show q.enqueue_index % bound < q.nodes.length
      rw [hlen0]; exact Nat.mod_lt _ hbpos
    have hnode := fun i => publish_node
      ({ q with enqueue_index := q.enqueue_index + 1 } : Queue T)
      (q.enqueue_index % bound) (some item) (q.enqueue_index + 1) hjlt i
    simp only [node_update_enq] at hnode
    refine ⟨?_, ?_, ?_, ?_, ?_, ?_⟩
    · simp [hlen0]
    · simp [hmask]
    · simp
      omega
    · simp
      omega
    · intro i hi
      simp only [List.length_append, List.length_cons, List.length_nil] at hi
      simp only [storeTicket_dequeue_index, storeData_dequeue_index,
        setNode_dequeue_index]
      rw [hnode ((q.dequeue_index + i) % bound)]
      by_cases hil : i < l.length
      · rw [if_neg (window_mod_ne (a := q.dequeue_index + i)
          (b := q.enqueue_index) (by omega) (by omega))]
        rw [List.getElem?_append, if_pos hil]
        exact hpub i hil
      · have hieq : i = l.length := by omega
        subst hieq
        rw [show q.dequeue_index + l.length = q.enqueue_index from hcur.symm,
          if_pos rfl, List.getElem?_append, if_neg (lt_irrefl _), Nat.sub_self]
        refine ⟨rfl, by simp⟩
    · intro p hp1 hp2
      simp only [storeTicket_dequeue_index, storeData_dequeue_index,
        storeTicket_enqueue_index, storeData_enqueue_index,
        setNode_dequeue_index, setNode_enqueue_index] at hp1 hp2 ⊢
      rw [hnode (p % bound)]
      rw [if_neg (Ne.symm (window_mod_ne (a := q.enqueue_index) (b := p)
        (by omega) (by omega)))]
      exact hfree p (by omega) (by omega)

/-- A full queue (contents of length `bound`) rejects an enqueue, handing the
value back, and the state is completely unchanged. -/
theorem tryEnqueue_reject {bound : Nat} {q : Queue T} {l : List T}
    (hv : ValidBound bound) (hinv : Inv bound q l) (hlen : l.length = bound)
    (item : T) (fuel : Nat) :
    q.try_enqueue item (fuel + 1) = some (q, some item) := by
  obtain ⟨hlen0, hmask, hcur, hle, hpub, hfree⟩ := hinv
  have hb2 : 2 ≤ bound := hv.1
  have hmaskmod : ∀ x : Nat, x &&& q.mask = x % bound := fun x => by
    rw [hmask]; exact and_mask_eq_mod hv.2 x
  have hpub0 : (q.node (q.dequeue_index % bound)).ticket = q.dequeue_index + 1 := by
    have := (hpub 0 (by omega)).1
    simpa using this
  have hmod : q.enqueue_index % bound = q.dequeue_index % bound := by
    rw [hcur, hlen]; exact Nat.add_mod_right _ _
  rw [Queue.try_enqueue, tryEnqueueAux_succ]
  simp only [hmaskmod, hmod]
  rw [hpub0, if_neg (by omega), if_pos (by omega)]

/-- A queue satisfying the invariant with non-empty contents `v :: l` serves
`v` to a dequeue: the cursor advances, the slot is freed for the next
generation (ticket `pos + bound`), and the contents become `l`. -/
theorem tryDequeue_take {bound : Nat} {q : Queue T} {v : T} {l : List T}
    (hv : ValidBound bound) (hinv : Inv bound q (v :: l)) :
    ∃ q1, (∀ fuel, q.try_dequeue (fuel + 1) = some (q1, some v)) ∧ Inv bound q1 l ∧
      q1.dequeue_index = q.dequeue_index + 1 ∧
      q1.enqueue_index = q.enqueue_index ∧
      (q1.node (q.dequeue_index % bound)).ticket = q.dequeue_index + bound := by
  obtain ⟨hlen0, hmask, hcur, hle, hpub, hfree⟩ := hinv
  simp only [List.length_cons] at hcur hle
  have hb2 : 2 ≤ bound := hv.1
  have hbpos : 0 < bound := by omega
  have hmaskmod : ∀ x : Nat, x &&& q.mask = x % bound := fun x => by
    rw [hmask]; exact and_mask_eq_mod hv.2 x
  have hpub0 : (q.node (q.dequeue_index % bound)).ticket = q.dequeue_index + 1 ∧
      (q.node (q.dequeue_index % bound)).data = some v := by
    have := hpub 0 (by simp)
    simpa using this
  have hjlt : q.dequeue_index % bound <
      ({ q with dequeue_index := q.dequeue_index + 1 } : Queue T).nodes.length := by
    show q.dequeue_index % bound < q.nodes.length
    rw [hlen0]; exact Nat.mod_lt _ hbpos
  have hnode := fun i => publish_node
    ({ q with dequeue_index := q.dequeue_index + 1 } : Queue T)
    (q.dequeue_index % bound) none (q.dequeue_index + q.mask + 1) hjlt i
  simp only [node_update_deq] at hnode
  refine ⟨((({ q with dequeue_index := q.dequeue_index + 1 } : Queue T).storeData
      (q.dequeue_index % bound) none).storeTicket (q.dequeue_index % bound)
      (q.dequeue_index + q.mask + 1)), ?_, ?_, by simp, by simp, ?_⟩
  · intro fuel
    rw [Queue.try_dequeue, tryDequeueAux_succ]
    simp only [hmaskmod]
    rw [hpub0.1]
    simp [hpub0.2]
  · refine ⟨?_, ?_, ?_, ?_, ?_, ?_⟩
    · simp [hlen0]
    · simp [hmask]
    · simp
      omega
    · omega
    · intro i hi
      simp only [storeTicket_dequeue_index, storeData_dequeue_index,
        setNode_dequeue_index]
      rw [hnode ((q.dequeue_index + 1 + i) % bound)]
      rw [if_neg (Ne.symm (window_mod_ne (a := q.dequeue_index)
        (b := q.dequeue_index + 1 + i) (by omega) (by omega)))]
      have harith : q.dequeue_index + 1 + i = q.dequeue_index + (i + 1) := by
        omega
      rw [harith]
      have := hpub (i + 1) (by simpa using Nat.succ_lt_succ hi)
      rwa [List.getElem?_cons_succ] at this
    · intro p hp1 hp2
      simp only [storeTicket_dequeue_index, storeData_dequeue_index,
        storeTicket_enqueue_index, storeData_enqueue_index,
        setNode_dequeue_index, setNode_enqueue_index] at hp1 hp2 ⊢
      rw [hnode (p % bound)]
      by_cases hpd : p = q.dequeue_index + bound
      · subst hpd
        rw [Nat.add_mod_right, if_pos rfl]
        refine ⟨?_, rfl⟩
        show q.dequeue_index + q.mask + 1 = q.dequeue_index + bound
        rw [hmask]; omega
      · rw [if_neg (Ne.symm (window_mod_ne (a := q.dequeue_index) (b := p)
          (by omega) (by omega)))]
        exact hfree p (by omega) (by omega)
  · rw [hnode (q.dequeue_index % bound), if_pos rfl]
    show q.dequeue_index + q.mask + 1 = q.dequeue_index + bound
    rw [hmask]; omega

/-- An empty queue satisfying the invariant answers `none` to a dequeue,
leaving the state completely unchanged. -/
theorem tryDequeue_empty {bound : Nat} {q : Queue T}
    (hv : ValidBound bound) (hinv : Inv bound q ([] : List T)) (fuel : Nat) :
    q.try_dequeue (fuel + 1) = some (q, none) := by
  obtain ⟨hlen0, hmask, hcur, hle, hpub, hfree⟩ := hinv
  simp only [List.length_nil, Nat.add_zero] at hcur
  have hb2 : 2 ≤ bound := hv.1
  have hmaskmod : ∀ x : Nat, x &&& q.mask = x % bound := fun x => by
    rw [hmask]; exact and_mask_eq_mod hv.2 x
  have hfree_d := hfree q.dequeue_index (by omega) (by omega)
  rw [Queue.try_dequeue, tryDequeueAux_succ]
  simp only [hmaskmod]
  rw [hfree_d.1, if_neg (by omega), if_pos (by omega)]

/-- A freshly constructed queue satisfies the invariant with empty
contents. -/
theorem new_Inv {bound : Nat} {q : Queue T} (h : Queue.new T bound = some q) :
    Inv bound q [] := by
  obtain ⟨h2, hland, hn, hm, he, hd⟩ := new_eq_some h
  refine ⟨new_nodes_length h, hm, by simp [he, hd], by simp, by simp, ?_⟩
  intro p hp1 hp2
  rw [he] at hp1
  rw [hd] at hp2
  have hplt : p % bound < bound := Nat.mod_lt _ (by omega)
  rw [new_node h (p % bound) hplt,
    Nat.mod_eq_of_lt (show p < bound by omega)]
  exact ⟨rfl, rfl⟩

/-- Every reachable state satisfies the invariant for some contents list
(and reachability implies the bound was valid). -/
theorem reachable_inv {bound : Nat} {q : Queue T} (h : Reachable T bound q) :
    ValidBound bound ∧ ∃ l, Inv bound q l := by
  induction h with
  | init q hq => exact ⟨new_valid hq, [], new_Inv hq⟩
  | enq q q1 item r fuel hr hstep ih =>
    obtain ⟨hv, l, hinv⟩ := ih
    refine ⟨hv, ?_⟩
    match fuel with
    | 0 => simp [Queue.try_enqueue, tryEnqueueAux] at hstep
    | f + 1 =>
      rcases Nat.lt_or_ge l.length bound with hlt | hge
      · obtain ⟨qa, heq, hinv1, -, -⟩ := tryEnqueue_accept hv hinv hlt item
        rw [heq f] at hstep
        simp only [Option.some.injEq, Prod.mk.injEq] at hstep
        exact ⟨l ++ [item], hstep.1 ▸ hinv1⟩
      · have hl : l.length = bound := le_antisymm hinv.2.2.2.1 hge
        have heq := tryEnqueue_reject hv hinv hl item f
        rw [heq] at hstep
        simp only [Option.some.injEq, Prod.mk.injEq] at hstep
        exact ⟨l, hstep.1 ▸ hinv⟩
  | deq q q1 r fuel hr hstep ih =>
    obtain ⟨hv, l, hinv⟩ := ih
    refine ⟨hv, ?_⟩
    match fuel with
    | 0 => simp [Queue.try_dequeue, tryDequeueAux] at hstep
    | f + 1 =>
      match l with
      | [] =>
        have heq := tryDequeue_empty hv hinv f
        rw [heq] at hstep
        simp only [Option.some.injEq, Prod.mk.injEq] at hstep
        exact ⟨[], hstep.1 ▸ hinv⟩
      | v :: l =>
        obtain ⟨qa, heq, hinv1, -, -, -⟩ := tryDequeue_take hv hinv
        rw [heq f] at hstep
        simp only [Option.some.injEq, Prod.mk.injEq] at hstep
        exact ⟨l, hstep.1 ▸ hinv1⟩

/-- Two positions in a window of `c` consecutive integers with the same
residue are equal. -/
theorem window_mod_inj {c lo a b : Nat} (ha1 : lo ≤ a) (ha2 : a < lo + c)
    (hb1 : lo ≤ b) (hb2 : b < lo + c) (h : a % c = b % c) : a = b := by
  rcases lt_trichotomy a b with hlt | heq | hgt
  · exact absurd h (window_mod_ne hlt (by omega))
  · exact heq
  · exact absurd h.symm (window_mod_ne hgt (by omega))

/-- Every residue class hits the window `[d, d + bound)` exactly once. -/
theorem exists_window_pos (d bound p : Nat) (hb : 0 < bound) :
    ∃ w, d ≤ w ∧ w < d + bound ∧ w % bound = p % bound := by
  have hd := Nat.div_add_mod d bound
  have hr : d % bound < bound := Nat.mod_lt _ hb
  have hx : p % bound < bound := Nat.mod_lt _ hb
  rcases le_or_lt (d % bound) (p % bound) with h | h
  · refine ⟨bound * (d / bound) + p % bound, by omega, by omega, ?_⟩
    rw [Nat.mul_add_mod, Nat.mod_eq_of_lt hx]
  · refine ⟨bound * (d / bound) + bound + p % bound, by omega, by omega, ?_⟩
    rw [Nat.add_right_comm, Nat.add_mod_right, Nat.mul_add_mod,
      Nat.mod_eq_of_lt hx]

/-- The slot protocol, read off the invariant: slot `p % bound`'s ticket is
`p` exactly when position `p` is free for an enqueue of its generation
(`enqueue_index ≤ p < dequeue_index + bound`), and `p + 1` exactly when the
slot holds the published value of position `p`
(`dequeue_index ≤ p < enqueue_index`). -/
theorem ticket_iff {bound : Nat} {q : Queue T} {l : List T}
    (hv : ValidBound bound) (hinv : Inv bound q l) (p : Nat) :
    ((q.node (p % bound)).ticket = p ↔
      q.enqueue_index ≤ p ∧ p < q.dequeue_index + bound) ∧
    ((q.node (p % bound)).ticket = p + 1 ↔
      q.dequeue_index ≤ p ∧ p < q.enqueue_index) := by
  obtain ⟨hlen0, hmask, hcur, hle, hpub, hfree⟩ := hinv
  have hb2 : 2 ≤ bound := hv.1
  have hbpos : 0 < bound := by omega
  obtain ⟨w, hw1, hw2, hwmod⟩ :=
    exists_window_pos q.dequeue_index bound p hbpos
  rcases Nat.lt_or_ge w q.enqueue_index with hwpub | hwfree
  · have hticket : (q.node (p % bound)).ticket = w + 1 := by
      have hx := (hpub (w - q.dequeue_index) (by omega)).1
      rw [show q.dequeue_index + (w - q.dequeue_index) = w by omega] at hx
      rw [← hwmod]
      exact hx
    constructor
    · constructor
      · intro hp
        rw [hticket] at hp
        exact absurd hwmod (window_mod_ne (a := w) (b := p)
          (by omega) (by omega))
      · intro hp
        exfalso
        have hpw : w = p :=
          window_mod_inj hw1 hw2 (by omega) (by omega) hwmod
        omega
    · constructor
      · intro hp
        rw [hticket] at hp
        exact ⟨by omega, by omega⟩
      · intro hp
        have hpw : w = p :=
          window_mod_inj hw1 hw2 hp.1 (by omega) hwmod
        rw [hticket]
        omega
  · have hticket : (q.node (p % bound)).ticket = w := by
      have hx := (hfree w hwfree (by omega)).1
      rw [← hwmod]
      exact hx
    constructor
    · constructor
      · intro hp
        rw [hticket] at hp
        exact ⟨by omega, by omega⟩
      · intro hp
        have hpw : w = p :=
          window_mod_inj hw1 hw2 (by omega) (by omega) hwmod
        rw [hticket]
        omega
    · constructor
      · intro hp
        rw [hticket] at hp
        exact absurd (hp ▸ hwmod).symm (window_mod_ne (a := p) (b := p + 1)
          (by omega) (by omega))
      · intro hp
        exfalso
        have hpw : w = p :=
          window_mod_inj hw1 hw2 hp.1 (by omega) hwmod
        omega

/-- The trace semantics refines a functional FIFO queue: from a state with
contents `l`, a run of any operation sequence succeeds and the dequeued
values prefixed to the final contents equal the initial contents followed by
the accepted values. -/
theorem runTrace_spec {bound : Nat} (hv : ValidBound bound) :
    ∀ (ops : List (Op T)) (q : Queue T) (l : List T), Inv bound q l →
    ∃ qf es ds lf, runTrace q ops = some (qf, es, ds) ∧ Inv bound qf lf ∧
      ds ++ lf = l ++ es := by
  intro ops
  induction ops with
  | nil =>
    intro q l hinv
    exact ⟨q, [], [], l, rfl, hinv, by simp⟩
  | cons op ops ih =>
    intro q l hinv
    match op with
    | Op.enq v =>
      rcases Nat.lt_or_ge l.length bound with hlt | hge
      · obtain ⟨q1, heq, hinv1, -, -⟩ := tryEnqueue_accept hv hinv hlt v
        obtain ⟨qf, es, ds, lf, hrun, hinvf, habs⟩ := ih q1 (l ++ [v]) hinv1
        refine ⟨qf, v :: es, ds, lf, ?_, hinvf, ?_⟩
        · simp only [runTrace, heq 0, hrun]
        · rw [habs]
          simp
      · have hl : l.length = bound := le_antisymm hinv.2.2.2.1 hge
        have heq := tryEnqueue_reject hv hinv hl v 0
        obtain ⟨qf, es, ds, lf, hrun, hinvf, habs⟩ := ih q l hinv
        refine ⟨qf, es, ds, lf, ?_, hinvf, habs⟩
        simp only [runTrace, heq, hrun]
    | Op.deq =>
      match l with
      | [] =>
        have heq := tryDequeue_empty hv hinv 0
        obtain ⟨qf, es, ds, lf, hrun, hinvf, habs⟩ := ih q [] hinv
        refine ⟨qf, es, ds, lf, ?_, hinvf, habs⟩
        simp only [runTrace, heq, hrun]
      | v :: l =>
        obtain ⟨q1, heq, hinv1, -, -, -⟩ := tryDequeue_take hv hinv
        obtain ⟨qf, es, ds, lf, hrun, hinvf, habs⟩ := ih q1 l hinv1
        refine ⟨qf, es, v :: ds, lf, ?_, hinvf, ?_⟩
        · simp only [runTrace, heq 0, hrun]
        · rw [List.cons_append, habs]
          simp

/-- A run consisting only of enqueues that fit within the capacity accepts
every value, in order. -/
theorem runTrace_enq_all {bound : Nat} (hv : ValidBound bound) :
    ∀ (vs : List T) (q : Queue T) (l : List T), Inv bound q l →
      l.length + vs.length ≤ bound →
      ∃ qf, runTrace q (vs.map Op.enq) = some (qf, vs, []) ∧
        Inv bound qf (l ++ vs) := by
  intro vs
  induction vs with
  | nil =>
    intro q l hinv hle
    exact ⟨q, rfl, by simpa using hinv⟩
  | cons v vs ih =>
    intro q l hinv hle
    simp only [List.length_cons] at hle
    obtain ⟨q1, heq, hinv1, -, -⟩ :=
      tryEnqueue_accept hv hinv (by omega) v
    obtain ⟨qf, hrun, hinvf⟩ := ih q1 (l ++ [v])
      hinv1 (by simp; omega)
    refine ⟨qf, ?_, by simpa using hinvf⟩
    simp only [List.map_cons, runTrace, heq 0, hrun]

/-- One unrolling of the blocking `enqueue` spin loop. -/
theorem enqueue_succ (q : Queue T) (item : T) (fuel : Nat) :
    q.enqueue item (fuel + 1) =
      (match q.try_enqueue item (fuel + 1) with
      | some (q1, none) => some q1
      | some (q1, some v) => q1.enqueue v fuel
      | none => none) := rfl

/-- One unrolling of the blocking `dequeue` spin loop. -/
theorem dequeue_succ (q : Queue T) (fuel : Nat) :
    q.dequeue (fuel + 1) =
      (match q.try_dequeue (fuel + 1) with
      | some (q1, some v) => some (q1, v)
      | some (q1, none) => q1.dequeue fuel
      | none => none) := rfl

/-- On a non-full queue, the blocking `enqueue` terminates on its first
`try_enqueue` call, with the same effect as that successful call. -/
theorem enqueue_not_full {bound : Nat} {q : Queue T} {l : List T}
    (hv : ValidBound bound) (hinv : Inv bound q l) (hlen : l.length < bound)
    (item : T) :
    ∃ q1, q.try_enqueue item 1 = some (q1, none) ∧
      (∀ fuel, q.enqueue item (fuel + 1) = some q1) ∧
      Inv bound q1 (l ++ [item]) := by
  obtain ⟨q1, heq, hinv1, -, -⟩ := tryEnqueue_accept hv hinv hlen item
  refine ⟨q1, heq 0, ?_, hinv1⟩
  intro fuel
  rw [enqueue_succ, heq fuel]

/-- On a non-empty queue, the blocking `dequeue` terminates on its first
`try_dequeue` call, returning the front value. -/
theorem dequeue_not_empty {bound : Nat} {q : Queue T} {v : T} {l : List T}
    (hv : ValidBound bound) (hinv : Inv bound q (v :: l)) :
    ∃ q1, q.try_dequeue 1 = some (q1, some v) ∧
      (∀ fuel, q.dequeue (fuel + 1) = some (q1, v)) ∧
      Inv bound q1 l := by
  obtain ⟨q1, heq, hinv1, -, -, -⟩ := tryDequeue_take hv hinv
  refine ⟨q1, heq 0, ?_, hinv1⟩
  intro fuel
  rw [dequeue_succ, heq fuel]

/-- Whatever the fuel, a rejected `try_enqueue` hands back exactly the value
passed in and leaves the queue state untouched (this holds for arbitrary
states, not just reachable ones). -/
theorem tryEnqueue_rejected_id (q : Queue T) (item : T) :
    ∀ (fuel : Nat) (q1 : Queue T) (v : T),
      q.try_enqueue item fuel = some (q1, some v) → q1 = q ∧ v = item := by
  have haux : ∀ (fuel : Nat) (q1 : Queue T) (v : T),
      tryEnqueueAux item q q.enqueue_index fuel = some (q1, some v) →
      q1 = q ∧ v = item := by
    intro fuel
    induction fuel with
    | zero =>
      intro q1 v h
      exact absurd h (by simp [tryEnqueueAux])
    | succ f ih =>
      intro q1 v h
      rw [tryEnqueueAux_succ] at h
      split at h
      · split at h
        · simp at h
        · exact ih q1 v h
      · split at h
        · simp only [Option.some.injEq, Prod.mk.injEq, Option.some.injEq] at h
          exact ⟨h.1.symm, h.2.symm⟩
        · exact ih q1 v h
  exact haux

/-- A `try_dequeue` that reports empty leaves a reachable state untouched. -/
theorem tryDequeue_none_id {bound : Nat} {q q1 : Queue T} {l : List T}
    (hv : ValidBound bound) (hinv : Inv bound q l) {fuel : Nat}
    (h : q.try_dequeue fuel = some (q1, none)) : q1 = q := by
  match fuel with
  | 0 => exact absurd h (by simp [Queue.try_dequeue, tryDequeueAux])
  | f + 1 =>
    match l with
    | [] =>
      rw [tryDequeue_empty hv hinv f] at h
      simp only [Option.some.injEq, Prod.mk.injEq] at h
      exact h.1.symm
    | v :: l =>
      obtain ⟨qa, heq, -, -, -, -⟩ := tryDequeue_take hv hinv
      rw [heq f] at h
      simp at h

/-! ### The claims -/

/-- The concrete fresh capacity-2 queue used by the concrete instances. -/
def q2new : Queue Nat := ⟨[⟨0, none⟩, ⟨1, none⟩], 1, 0, 0⟩

theorem new2_eq : Queue.new Nat 2 = some q2new := by decide

/-- C1: FIFO order — for any run of operations from a freshly constructed
queue, the sequence of dequeued values is exactly the prefix (of its length)
of the sequence of successfully enqueued values, in order: the order of
successful enqueue calls maps 1:1 to the order of dequeue results. -/
theorem C1_fifo_order {bound : Nat} {q0 qf : Queue T} {ops : List (Op T)}
    {es ds : List T}
    (hnew : Queue.new T bound = some q0)
    (hrun : runTrace q0 ops = some (qf, es, ds)) :
    ds = es.take ds.length := by
  obtain ⟨qf2, es2, ds2, lf, hrun2, -, habs⟩ :=
    runTrace_spec (new_valid hnew) ops q0 [] (new_Inv hnew)
  rw [hrun] at hrun2
  simp only [Option.some.injEq, Prod.mk.injEq] at hrun2
  obtain ⟨-, he, hd⟩ := hrun2
  rw [← he, ← hd] at habs
  simp only [List.nil_append] at habs
  rw [← habs, List.take_left]

/-- Witness for C1 at a concrete run: capacity 2, enqueue 10 and 20, then
dequeue twice. -/
theorem C1_fifo_order_witness :
    Queue.new Nat 2 = some q2new ∧
    runTrace q2new [Op.enq 10, Op.enq 20, Op.deq, Op.deq] =
      some (⟨[⟨2, none⟩, ⟨3, none⟩], 1, 2, 2⟩, [10, 20], [10, 20]) ∧
    ([10, 20] : List Nat) = [10, 20].take [10, 20].length := by
  have h2 : runTrace q2new [Op.enq 10, Op.enq 20, Op.deq, Op.deq] =
      some (⟨[⟨2, none⟩, ⟨3, none⟩], 1, 2, 2⟩, [10, 20], [10, 20]) := by
    decide
  exact ⟨new2_eq, h2, C1_fifo_order new2_eq h2⟩

/-- C2: no loss, no duplication — if a run performs as many successful
dequeues as successful enqueues, the dequeued list is exactly the enqueued
list (hence the two multisets coincide, and distinct enqueued values are
each dequeued exactly once). -/
theorem C2_no_loss_no_dup {bound : Nat} {q0 qf : Queue T} {ops : List (Op T)}
    {es ds : List T}
    (hnew : Queue.new T bound = some q0)
    (hrun : runTrace q0 ops = some (qf, es, ds))
    (hlen : ds.length = es.length) :
    ds = es ∧ List.Perm ds es ∧ (es.Nodup → ds.Nodup) := by
  obtain ⟨qf2, es2, ds2, lf, hrun2, -, habs⟩ :=
    runTrace_spec (new_valid hnew) ops q0 [] (new_Inv hnew)
  rw [hrun] at hrun2
  simp only [Option.some.injEq, Prod.mk.injEq] at hrun2
  obtain ⟨-, he, hd⟩ := hrun2
  rw [← he, ← hd] at habs
  simp only [List.nil_append] at habs
  have hlf : lf = [] := by
    have := congrArg List.length habs
    simp only [List.length_append] at this
    have : lf.length = 0 := by omega
    exact List.length_eq_zero.1 this
  rw [hlf, List.append_nil] at habs
  exact ⟨habs, habs ▸ List.Perm.refl ds, fun h => habs ▸ h⟩

/-- Witness for C2 at a concrete run: capacity 2, an interleaving with a
rejected enqueue and an empty dequeue among the calls. -/
theorem C2_no_loss_no_dup_witness :
    Queue.new Nat 2 = some q2new ∧
    runTrace q2new [Op.enq 7, Op.enq 8, Op.enq 9, Op.deq, Op.deq, Op.deq] =
      some (⟨[⟨2, none⟩, ⟨3, none⟩], 1, 2, 2⟩, [7, 8], [7, 8]) ∧
    ([7, 8] : List Nat).length = [7, 8].length ∧
    (([7, 8] : List Nat) = [7, 8] ∧ List.Perm [7, 8] [7, 8] ∧
      (([7, 8] : List Nat).Nodup → ([7, 8] : List Nat).Nodup)) := by
  have h2 : runTrace q2new
      [Op.enq 7, Op.enq 8, Op.enq 9, Op.deq, Op.deq, Op.deq] =
      some (⟨[⟨2, none⟩, ⟨3, none⟩], 1, 2, 2⟩, [7, 8], [7, 8]) := by
    decide
  exact ⟨new2_eq, h2, rfl, C2_no_loss_no_dup new2_eq h2 rfl⟩

/-- C3: bounded capacity — from a fresh queue of capacity `bound`, a list of
`bound` enqueues is accepted in full (zero dequeues), and afterwards any
`try_enqueue` of any value `w` is rejected with exactly `w` handed back and
the state unchanged. -/
theorem C3_bounded_capacity {bound : Nat} {q0 : Queue T} {vs : List T}
    (hnew : Queue.new T bound = some q0) (hlen : vs.length = bound) :
    ∃ qf, runTrace q0 (vs.map Op.enq) = some (qf, vs, []) ∧
      ∀ (w : T) (fuel : Nat),
        qf.try_enqueue w (fuel + 1) = some (qf, some w) := by
  have hv := new_valid hnew
  obtain ⟨qf, hrun, hinvf⟩ :=
    runTrace_enq_all hv vs q0 [] (new_Inv hnew) (by simp [hlen])
  refine ⟨qf, hrun, fun w fuel =>
    tryEnqueue_reject hv (by simpa using hinvf) (by simp [hlen]) w fuel⟩

/-- Witness for C3 with capacity 2: enqueue(10) succeeds, enqueue(20)
succeeds, and try_enqueue(30) returns the rejected value 30. -/
theorem C3_bounded_capacity_witness :
    Queue.new Nat 2 = some q2new ∧
    ([10, 20] : List Nat).length = 2 ∧
    (∃ qf, runTrace q2new ([10, 20].map Op.enq) = some (qf, [10, 20], []) ∧
      ∀ (w : Nat) (fuel : Nat),
        qf.try_enqueue w (fuel + 1) = some (qf, some w)) :=
  ⟨new2_eq, rfl, C3_bounded_capacity new2_eq rfl⟩

/-- C4: capacity validation — construction yields a queue exactly for the
power-of-two capacities that are at least 2; for every other capacity
(0, 1, 3, any non-power-of-two) the constructor's assertion fails and no
queue is produced. -/
theorem C4_capacity_validation (bound : Nat) :
    (Queue.new T bound).isSome ↔ (2 ≤ bound ∧ ∃ k, bound = 2 ^ k) := by
  unfold Queue.new
  split
  · rename_i h
    exact iff_of_true rfl
      ⟨h.1, (land_pred_eq_zero_iff bound (by omega)).1 h.2⟩
  · rename_i h
    refine iff_of_false (by simp) ?_
    rintro ⟨h2, hk⟩
    exact h ⟨h2, (land_pred_eq_zero_iff bound (by omega)).2 hk⟩

/-- C5: round trip — on a freshly constructed queue of any valid capacity,
blocking `enqueue(x)` terminates at once, the following blocking `dequeue`
returns exactly `x`, and the queue is empty again: a subsequent
`try_dequeue` returns `none` (and leaves the state unchanged). -/
theorem C5_round_trip {bound : Nat} {q0 : Queue T}
    (hnew : Queue.new T bound = some q0) (x : T) :
    ∃ q1 q2, (∀ fuel, q0.enqueue x (fuel + 1) = some q1) ∧
      (∀ fuel, q1.dequeue (fuel + 1) = some (q2, x)) ∧
      (∀ fuel, q2.try_dequeue (fuel + 1) = some (q2, none)) := by
  have hv := new_valid hnew
  have hinv0 := new_Inv hnew
  obtain ⟨q1, -, henq, hinv1⟩ := enqueue_not_full hv hinv0
    (by simpa using Nat.lt_of_lt_of_le Nat.zero_lt_two hv.1) x
  obtain ⟨q2, -, hdeq, hinv2⟩ := dequeue_not_empty hv (by simpa using hinv1)
  exact ⟨q1, q2, henq, hdeq, fun fuel => tryDequeue_empty hv hinv2 fuel⟩

/-- Witness for C5 at capacity 2 with x = 42. -/
theorem C5_round_trip_witness :
    Queue.new Nat 2 = some q2new ∧
    (∃ q1 q2, (∀ fuel, q2new.enqueue 42 (fuel + 1) = some q1) ∧
      (∀ fuel, q1.dequeue (fuel + 1) = some (q2, 42)) ∧
      (∀ fuel, q2.try_dequeue (fuel + 1) = some (q2, none))) :=
  ⟨new2_eq, C5_round_trip new2_eq 42⟩

/-- C6: slot sequence protocol — in every reachable state, for every logical
position `p`, slot `p % bound`'s ticket equals `p` exactly when the position
is free for its generation's enqueue, equals `p + 1` exactly when the slot
holds the published value of position `p`, and a completed dequeue (claimed
at position `dequeue_index`) republishes that slot with ticket
`position + bound`. -/
theorem C6_slot_sequence_protocol {bound : Nat} {q : Queue T}
    (hr : Reachable T bound q) :
    (∀ p, ((q.node (p % bound)).ticket = p ↔
        q.enqueue_index ≤ p ∧ p < q.dequeue_index + bound) ∧
      ((q.node (p % bound)).ticket = p + 1 ↔
        q.dequeue_index ≤ p ∧ p < q.enqueue_index)) ∧
    (∀ (q1 : Queue T) (v : T) (fuel : Nat),
      q.try_dequeue fuel = some (q1, some v) →
      (q1.node (q.dequeue_index % bound)).ticket = q.dequeue_index + bound) := by
  obtain ⟨hv, l, hinv⟩ := reachable_inv hr
  refine ⟨fun p => ticket_iff hv hinv p, ?_⟩
  intro q1 v fuel h
  match fuel, l, hinv with
  | 0, _, _ =>
    exact absurd h (by simp [Queue.try_dequeue, tryDequeueAux])
  | f + 1, [], hinv =>
    rw [tryDequeue_empty hv hinv f] at h
    simp at h
  | f + 1, w :: l, hinv =>
    obtain ⟨qa, heq, -, -, -, hticket⟩ := tryDequeue_take hv hinv
    rw [heq f] at h
    simp only [Option.some.injEq, Prod.mk.injEq] at h
    rw [← h.1]
    exact hticket

/-- Witness for C6 at the fresh capacity-2 queue. -/
theorem C6_slot_sequence_protocol_witness :
    Reachable Nat 2 q2new ∧
    ((∀ p, ((q2new.node (p % 2)).ticket = p ↔
        q2new.enqueue_index ≤ p ∧ p < q2new.dequeue_index + 2) ∧
      ((q2new.node (p % 2)).ticket = p + 1 ↔
        q2new.dequeue_index ≤ p ∧ p < q2new.enqueue_index)) ∧
    (∀ (q1 : Queue Nat) (v : Nat) (fuel : Nat),
      q2new.try_dequeue fuel = some (q1, some v) →
      (q1.node (q2new.dequeue_index % 2)).ticket = q2new.dequeue_index + 2)) :=
  ⟨Reachable.init q2new new2_eq,
    C6_slot_sequence_protocol (Reachable.init q2new new2_eq)⟩

/-- C7: occupancy bound — in every reachable state the cursors satisfy
`dequeue_index ≤ enqueue_index ≤ dequeue_index + bound`, so the queue never
holds more than `bound` items. -/
theorem C7_occupancy_bound {bound : Nat} {q : Queue T}
    (hr : Reachable T bound q) :
    q.dequeue_index ≤ q.enqueue_index ∧
    q.enqueue_index - q.dequeue_index ≤ bound := by
  obtain ⟨hv, l, hinv⟩ := reachable_inv hr
  obtain ⟨-, -, hcur, hle, -, -⟩ := hinv
  omega

/-- Witness for C7 at the fresh capacity-2 queue. -/
theorem C7_occupancy_bound_witness :
    Reachable Nat 2 q2new ∧
    (q2new.dequeue_index ≤ q2new.enqueue_index ∧
      q2new.enqueue_index - q2new.dequeue_index ≤ 2) :=
  ⟨Reachable.init q2new new2_eq,
    C7_occupancy_bound (Reachable.init q2new new2_eq)⟩

/-- C8: empty behaviour — `try_dequeue` on a freshly constructed queue (any
valid capacity) returns `none`, and leaves the queue unchanged. -/
theorem C8_empty_dequeue {bound : Nat} {q0 : Queue T}
    (hnew : Queue.new T bound = some q0) (fuel : Nat) :
    q0.try_dequeue (fuel + 1) = some (q0, none) :=
  tryDequeue_empty (new_valid hnew) (new_Inv hnew) fuel

/-- Witness for C8 at capacity 2. -/
theorem C8_empty_dequeue_witness :
    Queue.new Nat 2 = some q2new ∧
    q2new.try_dequeue 1 = some (q2new, none) :=
  ⟨new2_eq, C8_empty_dequeue new2_eq 0⟩

/-- C9: blocking wrappers — `enqueue` spins on `try_enqueue` feeding the
rejected value back in, `dequeue` spins on `try_dequeue`; on a state whose
contents are not full (resp. not empty), each terminates on its first probe
with exactly the effect of that successful `try_` call. -/
theorem C9_blocking_wrappers {bound : Nat} {q : Queue T} {l : List T}
    (hv : ValidBound bound) (hinv : Inv bound q l) :
    (∀ item, l.length < bound → ∃ q1,
      q.try_enqueue item 1 = some (q1, none) ∧
      ∀ fuel, q.enqueue item (fuel + 1) = some q1) ∧
    (∀ v l2, l = v :: l2 → ∃ q1,
      q.try_dequeue 1 = some (q1, some v) ∧
      ∀ fuel, q.dequeue (fuel + 1) = some (q1, v)) := by
  constructor
  · intro item hlen
    obtain ⟨q1, h1, h2, -⟩ := enqueue_not_full hv hinv hlen item
    exact ⟨q1, h1, h2⟩
  · rintro v l2 rfl
    obtain ⟨q1, h1, h2, -⟩ := dequeue_not_empty hv hinv
    exact ⟨q1, h1, h2⟩

/-- Witness for C9 at the fresh capacity-2 queue (whose contents are `[]`). -/
theorem C9_blocking_wrappers_witness :
    ValidBound 2 ∧
    Inv 2 q2new [] ∧
    ((∀ item : Nat, ([] : List Nat).length < 2 → ∃ q1,
      q2new.try_enqueue item 1 = some (q1, none) ∧
      ∀ fuel, q2new.enqueue item (fuel + 1) = some q1) ∧
    (∀ (v : Nat) (l2 : List Nat), ([] : List Nat) = v :: l2 → ∃ q1,
      q2new.try_dequeue 1 = some (q1, some v) ∧
      ∀ fuel, q2new.dequeue (fuel + 1) = some (q1, v))) :=
  ⟨new_valid new2_eq, new_Inv new2_eq,
    C9_blocking_wrappers (new_valid new2_eq) (new_Inv new2_eq)⟩

/-- C10: rejection atomicity — on any reachable state, a `try_enqueue` that
returns a rejected value hands back exactly the value passed in and leaves
the entire queue state (cursors, every slot's ticket and payload) equal to
what it was, and likewise a `try_dequeue` that returns `none` leaves the
state equal to what it was. -/
theorem C10_rejection_atomicity {bound : Nat} {q : Queue T}
    (hr : Reachable T bound q) :
    (∀ (item : T) (fuel : Nat) (q1 : Queue T) (v : T),
      q.try_enqueue item fuel = some (q1, some v) → q1 = q ∧ v = item) ∧
    (∀ (fuel : Nat) (q1 : Queue T),
      q.try_dequeue fuel = some (q1, none) → q1 = q) := by
  obtain ⟨hv, l, hinv⟩ := reachable_inv hr
  exact ⟨fun item fuel q1 v h => tryEnqueue_rejected_id q item fuel q1 v h,
    fun fuel q1 h => tryDequeue_none_id hv hinv h⟩

/-- Witness for C10 at the fresh capacity-2 queue. -/
theorem C10_rejection_atomicity_witness :
    Reachable Nat 2 q2new ∧
    ((∀ (item : Nat) (fuel : Nat) (q1 : Queue Nat) (v : Nat),
      q2new.try_enqueue item fuel = some (q1, some v) →
        q1 = q2new ∧ v = item) ∧
    (∀ (fuel : Nat) (q1 : Queue Nat),
      q2new.try_dequeue fuel = some (q1, none) → q1 = q2new)) :=
  ⟨Reachable.init q2new new2_eq,
    C10_rejection_atomicity (Reachable.init q2new new2_eq)⟩

end MpmcQueue
